import Mathlib

/-!
Verification of the pileup-decoding and depth-aggregation core of the
Bioinformatics repository (src/TargetSeq/QC/mpileup.py and
src/calculate_gene_depth.py).

Base-call and quality strings are embedded as `List Char`, integer fields as
`Int`, and the exact rational arithmetic of Python's `statistics.mean` /
`round` as `ℚ`.  Python operations that can raise (`statistics.mean` on an
empty list, the `assert` in `remove_asterisk`) are embedded as `Option`.
-/

namespace MpileupQC

/-- The run of characters matched by `[0-9]+` starting at the head of the
list (the greedy digit run of the indel regex in `_remove_indel`). -/
def leadingDigits : List Char → List Char
  | [] => []
  | c :: s => if c.isDigit then c :: leadingDigits s else []

/-- Numeric value of the digit run of an indel token:
`abs(int(found.group()))` in `_remove_indel`. -/
def indelValue (ds : List Char) : Nat :=
  ds.foldl (fun a c => 10 * a + (c.toNat - 48)) 0

/-- Start index of the leftmost match of the regex `[+-][0-9]+`
(`re.search` in `_remove_indel`): the first position holding a `+` or `-`
that is immediately followed by at least one digit. -/
def findIndelStart : List Char → Option Nat
  | [] => none
  | c :: s =>
    if (c == '+' || c == '-') && !(leadingDigits s).isEmpty then some 0
    else (findIndelStart s).map (fun i => i + 1)

/-- Python `str.replace(pat, '')` for the nonempty pattern `a :: ps`:
remove every non-overlapping occurrence, scanning left to right and
continuing after each removed occurrence.  Every recursive call consumes at
least one character, so the fuel below is spent no faster than the list. -/
def removeOccsFuel (a : Char) (ps : List Char) : Nat → List Char → List Char
  | 0, l => l
  | _ + 1, [] => []
  | n + 1, c :: s =>
    if c == a && ps.isPrefixOf s then removeOccsFuel a ps n (s.drop ps.length)
    else c :: removeOccsFuel a ps n s

/-- Python `str.replace(a :: ps, '')` with enough fuel for the whole scan. -/
def removeOccs (a : Char) (ps : List Char) (l : List Char) : List Char :=
  removeOccsFuel a ps l.length l

/-- The body of the `while` loop of `_remove_indel`, run at most `fuel`
times: find the leftmost `[+-][0-9]+` match, extend its end by the numeric
value of the digit run, slice that substring out of the string (Python
slicing clamps at the end), and delete every occurrence of the slice. -/
def remove_indelFuel : Nat → List Char → List Char
  | 0, s => s
  | n + 1, s =>
    match findIndelStart s with
    | none => s
    | some i =>
      let ds := leadingDigits (s.drop (i + 1))
      let pat := (s.drop i).take (1 + ds.length + indelValue ds)
      match pat with
      | [] => s
      | a :: ps => remove_indelFuel n (removeOccs a ps s)

/-- Function `_remove_indel` of mpileup.py.  Each loop iteration deletes at least the
found occurrence (two or more characters), so `s.length` iterations always
reach the fixed point of the `while` loop. -/
def _remove_indel (s : List Char) : List Char := remove_indelFuel s.length s

/-- The sweep `re.sub(r'\^.', '', seq)`: each caret together with the following
character is removed; `.` does not match a newline, and a trailing caret has
no following character, so those carets are kept. -/
def removeCaretPairs : List Char → List Char
  | [] => []
  | c :: s =>
    if c == '^' then
      match s with
      | [] => [c]
      | d :: t => if d == '\n' then c :: removeCaretPairs (d :: t) else removeCaretPairs t
    else c :: removeCaretPairs s

/-- The character class of the second `re.sub` in `_remove_low_quality`:
`[0-9\@\'\&\!\?\_\$\:\;F\"\+\#\-\=\%\)\(\/\~\}\[]+`. -/
def inSet2 (c : Char) : Bool :=
  c.isDigit ||
    ['@', '\'', '&', '!', '?', '_', '$', ':', ';', 'F', '\"', '+', '#', '-',
      '=', '%', ')', '(', '/', '~', '}', '['].contains c

/-- Function `_remove_low_quality` of mpileup.py: the caret sweep followed by the
symbol-class sweep (replacing every maximal run of class characters by the
empty string deletes exactly the class characters). -/
def _remove_low_quality (s : List Char) : List Char :=
  (removeCaretPairs s).filter (fun c => !inSet2 c)

/-- Function `clean_seq` of mpileup.py. -/
def clean_seq (s : List Char) : List Char :=
  _remove_low_quality (_remove_indel s)

/-- Python `seq_list.index('*')` guarded by `'*' in seq_list`: index of the first
occurrence, `none` when absent. -/
def firstIdxOf (a : Char) : List Char → Option Nat
  | [] => none
  | c :: s => if c == a then some 0 else (firstIdxOf a s).map (fun i => i + 1)

/-- The `while '*' in seq_list` loop of `remove_asterisk`, run at most
`fuel` times: pop the first `'*'` from the base list and the character at
the same index from the quality list. -/
def removeAsteriskFuel : Nat → List Char → List Char → List Char × List Char
  | 0, s, q => (s, q)
  | n + 1, s, q =>
    match firstIdxOf '*' s with
    | none => (s, q)
    | some i => removeAsteriskFuel n (s.eraseIdx i) (q.eraseIdx i)

/-- Function `remove_asterisk` of mpileup.py.  The entry `assert len(seq)==len(qual)`
is embedded as the `Option` guard; each loop iteration removes one `'*'`,
so `s.length` iterations always reach the fixed point. -/
def remove_asterisk (s q : List Char) : Option (List Char × List Char) :=
  if s.length = q.length then some (removeAsteriskFuel s.length s q) else none

/-- The full per-record cleaning pipeline described by the specification:
indel removal and the noise-symbol sweeps (`clean_seq`) followed by
asterisk removal against the quality string. -/
def cleanPair (s q : List Char) : Option (List Char × List Char) :=
  remove_asterisk (clean_seq s) q

/-- The quality string that the asterisk loop leaves behind: the character
paired with each non-`'*'` base survives (specification-side description of
the loop, used to characterise `removeAsteriskFuel`). -/
def maskFilter : List Char → List Char → List Char
  | [], q => q
  | _ :: _, [] => []
  | c :: s, d :: q => if c == '*' then maskFilter s q else d :: maskFilter s q

/-- One row of the in-memory depth index of `MpileupParser` (columns
chrom, pos, ref, depth, seq, qual of the loaded dataframe). -/
structure PileupRecord where
  chrom : String
  pos : Int
  ref : String
  depth : Int
  seq : List Char
  qual : List Char
  deriving DecidableEq

/-- Python `statistics.mean`: raises on an empty sequence (embedded as `none`),
otherwise the exact arithmetic mean. -/
def stat_mean (l : List ℚ) : Option ℚ :=
  if l.length = 0 then none else some (l.sum / (l.length : ℚ))

/-- Round a rational to the nearest integer, ties to the even integer
(the rounding used by Python's builtin `round`). -/
def roundHalfEven (q : ℚ) : ℤ :=
  if q - ⌊q⌋ < 1 / 2 then ⌊q⌋
  else if 1 / 2 < q - ⌊q⌋ then ⌊q⌋ + 1
  else if ⌊q⌋ % 2 = 0 then ⌊q⌋ else ⌊q⌋ + 1

/-- Python `round(x, 2)` over exact rationals. -/
def round2 (q : ℚ) : ℚ := (roundHalfEven (q * 100) : ℚ) / 100

/-- The three row conditions of `calc_region_depth`:
`chrom` equality and `start <= pos <= end`, both bounds inclusive. -/
def regionMatch (chrom : String) (start stop : Int) (r : PileupRecord) : Bool :=
  (r.chrom == chrom) && decide (start ≤ r.pos) && decide (r.pos ≤ stop)

/-- Method `MpileupParser.calc_region_depth`: depths of the matching rows; `0.0`
when the selection is empty, otherwise the mean rounded to two decimals.
`statistics.mean` is only reached on a nonempty selection, so the `Option`
records that the method itself can never raise. -/
def calc_region_depth (idx : List PileupRecord) (chrom : String)
    (start stop : Int) : Option ℚ :=
  let depths := (idx.filter (regionMatch chrom start stop)).map
    (fun r => (r.depth : ℚ))
  if depths.length = 0 then some 0 else (stat_mean depths).map round2

/-- Method `MpileupParser.uniformity`: the mean over the non-mitochondrial rows is
halved, and the returned value is the mean of the per-row indicator
`0 if depth < threshold else 1` taken over every row of the index. -/
def uniformity (idx : List PileupRecord) : Option ℚ :=
  match stat_mean ((idx.filter (fun r => r.chrom != "chrM")).map
      (fun r => (r.depth : ℚ))) with
  | none => none
  | some m =>
    let mean_depth := m / 2
    stat_mean (idx.map (fun r => if (r.depth : ℚ) < mean_depth then (0 : ℚ) else 1))

/-- One raw row of the dataframe produced by `pd.read_csv` in
`MpileupParser.__init__`; a `none` quality is a null entry. -/
structure RawRow where
  chrom : String
  pos : Int
  ref : String
  depth : Int
  seq : List Char
  qual : Option (List Char)
  deriving DecidableEq

/-- The per-row body of the processing loop of `MpileupParser.__init__`:
`clean_seq` is applied (a second time) to the row's base string and
`remove_asterisk` aligns it with the quality string; an assertion failure
inside `remove_asterisk` aborts the load. -/
def processRow (r : RawRow) : Option PileupRecord :=
  match r.qual with
  | none => none
  | some q =>
    (remove_asterisk (clean_seq r.seq) q).map
      (fun p => ⟨r.chrom, r.pos, r.ref, r.depth, p.1, p.2⟩)

/-- The processing loop over the quality-non-null rows: any per-row failure
aborts the whole load, producing no index at all. -/
def loadRows : List RawRow → Option (List PileupRecord)
  | [] => some []
  | r :: rs =>
    match processRow r, loadRows rs with
    | some rec, some recs => some (rec :: recs)
    | _, _ => none

/-- Python `str.upper()` character by character (the `.str.upper()` applied
to the reference column). -/
def upperString (s : String) : String := ⟨s.data.map Char.toUpper⟩

/-- Method `MpileupParser.__init__` after `pd.read_csv`: the reference base is
upper-cased, `clean_seq` is applied to every base string, rows with a null
quality are dropped, and the remaining rows go through the processing
loop. -/
def loadIndex (rows : List RawRow) : Option (List PileupRecord) :=
  loadRows ((rows.map (fun r =>
    { r with ref := upperString r.ref, seq := clean_seq r.seq })).filter
      (fun r => r.qual.isSome))

/-- One row of the module-level gene coordinate table of
`calculate_gene_depth.py` (columns ENSEMBL_ID, SYMBOL, HGNC symbol, CHROM,
START, END, indexed by SYMBOL). -/
structure GeneCoord where
  ensembl_id : String
  symbol : String
  hgnc : String
  chrom : String
  start : Int
  stop : Int
  deriving DecidableEq

/-- Method `CalcGeneDepth._get_genomic_position`: restrict the coordinate table to
the rows with the requested Ensembl id, then look the symbol up in that
restriction; a missed lookup (the `KeyError` branch) prints an
informational note and falls back to the placeholder region
`('chr1', 0, 0)`.  The second component collects the printed notes. -/
def _get_genomic_position (genes : List GeneCoord) (symbol ensembl_id : String) :
    (String × Int × Int) × List String :=
  match (genes.filter (fun g => g.ensembl_id == ensembl_id)).find?
      (fun g => g.symbol == symbol) with
  | some g => ((g.chrom, g.start, g.stop), [])
  | none => (("chr1", 0, 0), ["[INFO] " ++ symbol ++ " gene not in gene_table."])

/-- Method `CalcGeneDepth.make_depth_table`: one output row per gene-list entry, in
order, holding the gene symbol and the depth of its resolved region. -/
def make_depth_table (genes : List GeneCoord) (gene_df : List (String × String))
    (idx : List PileupRecord) : List (String × Option ℚ) :=
  gene_df.map (fun ge =>
    let pos := (_get_genomic_position genes ge.1 ge.2).1
    (ge.1, calc_region_depth idx pos.1 pos.2.1 pos.2.2))

/-- Failure mode of the spec's loader. -/
inductive LoadFailure where
  | malformedLine
  deriving DecidableEq

/-- Split a line at every tab character (the `sep='\t'` field split). -/
def splitTabs : List Char → List (List Char)
  | [] => [[]]
  | c :: s =>
    if c == '\t' then [] :: splitTabs s
    else
      match splitTabs s with
      | [] => [[c]]
      | h :: t => (c :: h) :: t

/-- Value of a nonempty all-digit string. -/
def digitsToNat? (cs : List Char) : Option Nat :=
  if cs.isEmpty then none
  else if cs.all Char.isDigit then
    some (cs.foldl (fun a c => 10 * a + (c.toNat - 48)) 0)
  else none

/-- Integer parse with an optional sign. -/
def parseInt? (cs : List Char) : Option Int :=
  match cs with
  | '-' :: ds => (digitsToNat? ds).map (fun n => -(n : Int))
  | '+' :: ds => (digitsToNat? ds).map (fun n => (n : Int))
  | ds => (digitsToNat? ds).map (fun n => (n : Int))

/-- Modelled from the spec: the source delegates line decomposition to
`pd.read_csv` (src/TargetSeq/QC/mpileup.py, `MpileupParser.__init__`) and
contains no field-count or integer validation of its own; this definition
follows the spec's words for the missing validation — a pileup line must
split into exactly six tab-separated fields whose position and depth parse
as integers, and any other line fails the load with `MalformedLineError`. -/
def parsePileupLineSpec (line : List Char) : Except LoadFailure RawRow :=
  match splitTabs line with
  | [c, p, rb, d, sq, ql] =>
    match parseInt? p, parseInt? d with
    | some pv, some dv =>
      .ok ⟨c.asString, pv, rb.asString, dv, sq, some ql⟩
    | _, _ => .error .malformedLine
  | _ => .error .malformedLine

/-- Specification-side predicate: every caret in the string is followed by a
newline or stands at the end, i.e. the string is a fixed point of the caret
sweep. -/
def caretOk : List Char → Bool
  | [] => true
  | [_] => true
  | a :: b :: t => (a != '^' || b == '\n') && caretOk (b :: t)

/-- Specification-side value: the depths of the records whose chromosome is
not the mitochondrial contig. -/
def specNonMitoDepths (idx : List PileupRecord) : List ℚ :=
  (idx.filter (fun r => r.chrom != "chrM")).map (fun r => (r.depth : ℚ))

/-- Specification-side value: half the sample-wide mean depth over the
non-mitochondrial records. -/
def specHalfMeanThreshold (idx : List PileupRecord) : ℚ :=
  (specNonMitoDepths idx).sum / ((specNonMitoDepths idx).length : ℚ) / 2

/-- Specification-side value: per-record scores, 1 when the record's depth
is at least the threshold and 0 otherwise, over every record of the index
(mitochondrial ones included). -/
def specScores (idx : List PileupRecord) : List ℚ :=
  idx.map (fun r => if specHalfMeanThreshold idx ≤ (r.depth : ℚ) then (1 : ℚ) else 0)

/-- Specification-side value: the mean of the per-record scores. -/
def specScoreMean (idx : List PileupRecord) : ℚ :=
  (specScores idx).sum / ((specScores idx).length : ℚ)

/-- Fixture: three records on chr1 at positions 1..3 with depths 10, 20, 30. -/
def idxThree : List PileupRecord :=
  [⟨"chr1", 1, "A", 10, [], []⟩, ⟨"chr1", 2, "A", 20, [], []⟩,
    ⟨"chr1", 3, "A", 30, [], []⟩]

/-- Fixture: five non-mitochondrial records with depths 10, 10, 10, 10, 100
(the uniformity example of the specification). -/
def idxFive : List PileupRecord :=
  [⟨"chr1", 1, "A", 10, [], []⟩, ⟨"chr1", 2, "A", 10, [], []⟩,
    ⟨"chr1", 3, "A", 10, [], []⟩, ⟨"chr1", 4, "A", 10, [], []⟩,
    ⟨"chr1", 5, "A", 100, [], []⟩]

/-- Fixture: one raw pileup row whose base string carries a deletion
placeholder. -/
def rowsOne : List RawRow :=
  [⟨"chr1", 100, "a", 3, "A*C".toList, some "FGH".toList⟩]

/-- Fixture: the record produced by loading `rowsOne`. -/
def recOne : PileupRecord := ⟨"chr1", 100, "A", 3, "AC".toList, "FH".toList⟩

/-- Fixture: a one-row gene coordinate table. -/
def genesOne : List GeneCoord := [⟨"ENSG1", "BRCA1", "x", "chr17", 100, 200⟩]

/-- Fixture: a gene list holding a pair absent from `genesOne`. -/
def geneListOne : List (String × String) := [("TP53", "ENSG2")]

/-! Properties of the asterisk-removal loop -/

theorem firstIdxOf_eq_none_iff {a : Char} :
    ∀ {s : List Char}, firstIdxOf a s = none ↔ a ∉ s
  | [] => by simp [firstIdxOf]
  | c :: t => by
    have ih := firstIdxOf_eq_none_iff (a := a) (s := t)
    by_cases hc : c = a
    · subst hc
      simp [firstIdxOf]
    · have hc2 : a ≠ c := fun h => hc h.symm
      simp [firstIdxOf, beq_iff_eq, hc, hc2, Option.map_eq_none', ih]

theorem filter_ne_of_not_mem {a : Char} {s : List Char} (h : a ∉ s) :
    s.filter (fun c => c != a) = s :=
  List.filter_eq_self.mpr (fun c hc => by
    simp only [bne_iff_ne, ne_eq]
    exact fun hca => h (hca ▸ hc))

theorem filter_eraseIdx_firstIdxOf {a : Char} :
    ∀ {s : List Char} {i : Nat}, firstIdxOf a s = some i →
      (s.eraseIdx i).filter (fun c => c != a) = s.filter (fun c => c != a) := by
  intro s
  induction s with
  | nil => intro i h; simp [firstIdxOf] at h
  | cons c t ih =>
    intro i h
    by_cases hc : c = a
    · subst hc
      have hi : i = 0 := by simpa [firstIdxOf] using h.symm
      subst hi
      simp [List.eraseIdx_cons_zero, List.filter_cons]
    · have hb : (c == a) = false := by simpa using hc
      rw [firstIdxOf, if_neg (by simp [hb])] at h
      cases hft : firstIdxOf a t with
      | none => rw [hft] at h; simp at h
      | some j =>
        rw [hft] at h
        simp only [Option.map_some'] at h
        have hij := Option.some.inj h
        subst hij
        simp [List.eraseIdx_cons_succ, List.filter_cons, ih hft]

theorem maskFilter_of_not_mem :
    ∀ {s : List Char} (q : List Char), '*' ∉ s → maskFilter s q = q
  | [], _, _ => rfl
  | _ :: _, [], _ => rfl
  | c :: s, d :: q, h => by
    have hc : (c == '*') = false := by
      simpa using fun hc' : c = '*' => h (hc' ▸ List.mem_cons_self c s)
    have hs : '*' ∉ s := fun hm => h (List.mem_cons_of_mem c hm)
    simp [maskFilter, hc, maskFilter_of_not_mem q hs]

theorem maskFilter_eraseIdx :
    ∀ {s : List Char} {i : Nat} (q : List Char), firstIdxOf '*' s = some i →
      maskFilter (s.eraseIdx i) (q.eraseIdx i) = maskFilter s q := by
  intro s
  induction s with
  | nil => intro i q h; simp [firstIdxOf] at h
  | cons c t ih =>
    intro i q h
    by_cases hc : c = '*'
    · subst hc
      have hi : i = 0 := by simpa [firstIdxOf] using h.symm
      subst hi
      cases q with
      | nil =>
        cases t with
        | nil => rfl
        | cons _ _ => rfl
      | cons d q' => simp [maskFilter, List.eraseIdx_cons_zero]
    · have hb : (c == '*') = false := by simpa using hc
      rw [firstIdxOf, if_neg (by simp [hb])] at h
      cases hft : firstIdxOf '*' t with
      | none => rw [hft] at h; simp at h
      | some j =>
        rw [hft] at h
        simp only [Option.map_some'] at h
        have hij := Option.some.inj h
        subst hij
        cases q with
        | nil => simp [maskFilter, List.eraseIdx_cons_succ, hb]
        | cons d q' =>
          simp [maskFilter, List.eraseIdx_cons_succ, hb, ih q' hft]

theorem count_eraseIdx_firstIdxOf {a : Char} :
    ∀ {s : List Char} {i : Nat}, firstIdxOf a s = some i →
      (s.eraseIdx i).count a + 1 = s.count a := by
  intro s
  induction s with
  | nil => intro i h; simp [firstIdxOf] at h
  | cons c t ih =>
    intro i h
    by_cases hc : c = a
    · subst hc
      have hi : i = 0 := by simpa [firstIdxOf] using h.symm
      subst hi
      simp [List.eraseIdx_cons_zero, List.count_cons_self]
    · have hb : (c == a) = false := by simpa using hc
      rw [firstIdxOf, if_neg (by simp [hb])] at h
      cases hft : firstIdxOf a t with
      | none => rw [hft] at h; simp at h
      | some j =>
        rw [hft] at h
        simp only [Option.map_some'] at h
        have hij := Option.some.inj h
        subst hij
        simp [List.eraseIdx_cons_succ, List.count_cons, hb, ← ih hft]

theorem removeAsteriskFuel_eq :
    ∀ (n : Nat) (s q : List Char), s.count '*' ≤ n →
      removeAsteriskFuel n s q = (s.filter (fun c => c != '*'), maskFilter s q)
  | 0, s, q, h => by
    have hnot : '*' ∉ s := List.count_eq_zero.mp (Nat.le_zero.mp h)
    simp [removeAsteriskFuel, filter_ne_of_not_mem hnot, maskFilter_of_not_mem q hnot]
  | n + 1, s, q, h => by
    cases hf : firstIdxOf '*' s with
    | none =>
      have hnot : '*' ∉ s := firstIdxOf_eq_none_iff.mp hf
      simp [removeAsteriskFuel, hf, filter_ne_of_not_mem hnot,
        maskFilter_of_not_mem q hnot]
    | some i =>
      have hcount := count_eraseIdx_firstIdxOf hf
      have hle : (s.eraseIdx i).count '*' ≤ n := by omega
      simp [removeAsteriskFuel, hf,
        removeAsteriskFuel_eq n (s.eraseIdx i) (q.eraseIdx i) hle,
        filter_eraseIdx_firstIdxOf hf, maskFilter_eraseIdx q hf]

theorem maskFilter_length :
    ∀ {s q : List Char}, s.length = q.length →
      (maskFilter s q).length = (s.filter (fun c => c != '*')).length
  | [], [], _ => rfl
  | [], _ :: _, h => by simp at h
  | _ :: _, [], h => by simp at h
  | c :: s, d :: q, h => by
    have h' : s.length = q.length := by simpa using h
    by_cases hc : c = '*'
    · subst hc
      simp [maskFilter, List.filter_cons, maskFilter_length h']
    · have hb : (c == '*') = false := by simpa using hc
      simp [maskFilter, List.filter_cons, hb, bne, maskFilter_length h']

theorem remove_asterisk_eq {s q s2 q2 : List Char}
    (h : remove_asterisk s q = some (s2, q2)) :
    s.length = q.length ∧ s2 = s.filter (fun c => c != '*') ∧ q2 = maskFilter s q := by
  unfold remove_asterisk at h
  by_cases hl : s.length = q.length
  · rw [if_pos hl, removeAsteriskFuel_eq s.length s q (List.count_le_length '*' s)] at h
    obtain ⟨h1, h2⟩ := Prod.mk.injEq .. ▸ (Option.some.injEq .. ▸ h)
    exact ⟨hl, h1.symm, h2.symm⟩
  · rw [if_neg hl] at h
    simp at h

theorem processRow_length {r : RawRow} {rec : PileupRecord}
    (h : processRow r = some rec) : rec.seq.length = rec.qual.length := by
  cases hq : r.qual with
  | none => simp [processRow, hq] at h
  | some q =>
    simp only [processRow, hq] at h
    cases hra : remove_asterisk (clean_seq r.seq) q with
    | none => rw [hra] at h; simp at h
    | some p =>
      obtain ⟨s2, q2⟩ := p
      obtain ⟨hl, hs, hq2⟩ := remove_asterisk_eq hra
      rw [hra] at h
      simp only [Option.map_some', Option.some.injEq] at h
      subst h
      show s2.length = q2.length
      rw [hs, hq2]
      exact (maskFilter_length hl).symm

theorem loadRows_mem :
    ∀ {rows : List RawRow} {idx : List PileupRecord}, loadRows rows = some idx →
      ∀ rec ∈ idx, rec.seq.length = rec.qual.length := by
  intro rows
  induction rows with
  | nil =>
    intro idx h rec hrec
    simp [loadRows] at h
    subst h
    simp at hrec
  | cons r rs ih =>
    intro idx h rec hrec
    unfold loadRows at h
    cases hp : processRow r with
    | none => rw [hp] at h; simp at h
    | some rec1 =>
      cases hrs : loadRows rs with
      | none => rw [hp, hrs] at h; simp at h
      | some recs =>
        rw [hp, hrs] at h
        simp only [Option.some.injEq] at h
        subst h
        rcases List.mem_cons.mp hrec with h1 | h1
        · subst h1; exact processRow_length hp
        · exact ih hrs rec h1

/-- Claim C4: every record held in the depth index after loading completes
(cleaning plus asterisk removal applied) has base-call and quality strings
of equal length. -/
theorem loaded_lengths_agree (rows : List RawRow) (idx : List PileupRecord)
    (h : loadIndex rows = some idx) :
    ∀ rec ∈ idx, rec.seq.length = rec.qual.length := by
  unfold loadIndex at h
  exact loadRows_mem h

/-- Witness for C4 at a concrete one-row pileup. -/
theorem loaded_lengths_agree_instance :
    loadIndex rowsOne = some [recOne] ∧ recOne.seq.length = recOne.qual.length :=
  ⟨by decide, loaded_lengths_agree rowsOne [recOne] (by decide) recOne (by simp)⟩

/-- Claim C6: on bases `"A*C"` with qualities `"FGH"`, asterisk removal
deletes the `'*'` and the quality character at the same offset, yielding
`"AC"` and `"FH"`. -/
theorem remove_asterisk_example :
    remove_asterisk "A*C".toList "FGH".toList = some ("AC".toList, "FH".toList) := by
  decide

/-! Fixed points of the cleaning sweeps -/

theorem caretOk_cons {a : Char} {l : List Char} (ha : a ≠ '^')
    (hl : caretOk l = true) : caretOk (a :: l) = true := by
  cases l with
  | nil => rfl
  | cons b t => simp [caretOk, bne_iff_ne, ha, hl]

theorem caretOk_tail {a : Char} {l : List Char} (h : caretOk (a :: l) = true) :
    caretOk l = true := by
  cases l with
  | nil => rfl
  | cons b t =>
    simp only [caretOk, Bool.and_eq_true] at h
    exact h.2

theorem caretOk_removeCaretPairs : ∀ (l : List Char), caretOk (removeCaretPairs l) = true
  | [] => rfl
  | [c] => by
    by_cases hc : c = '^'
    · subst hc; rfl
    · have hb : (c == '^') = false := by simpa using hc
      simp [removeCaretPairs, hb, caretOk]
  | c :: d :: t => by
    have ih1 := caretOk_removeCaretPairs (d :: t)
    have ih2 := caretOk_removeCaretPairs t
    by_cases hc : c = '^'
    · subst hc
      by_cases hd : d = '\n'
      · subst hd
        have h3 : (('\n' : Char) == '^') = false := by decide
        have e1 : removeCaretPairs ('\n' :: t) = '\n' :: removeCaretPairs t := by
          rw [removeCaretPairs.eq_def]
          simp [h3]
        have e2 : removeCaretPairs ('^' :: '\n' :: t) =
            '^' :: removeCaretPairs ('\n' :: t) := by
          rw [removeCaretPairs.eq_def]
          simp
        rw [e1] at ih1
        rw [e2, e1]
        simp [caretOk, ih1]
      · have hb : (d == '\n') = false := by simpa using hd
        have e3 : removeCaretPairs ('^' :: d :: t) = removeCaretPairs t := by
          simp [removeCaretPairs, hb]
        rw [e3]
        exact ih2
    · have hb : (c == '^') = false := by simpa using hc
      simp only [removeCaretPairs, hb, Bool.false_eq_true, if_false]
      exact caretOk_cons hc ih1

theorem removeCaretPairs_of_caretOk : ∀ {l : List Char}, caretOk l = true →
    removeCaretPairs l = l
  | [], _ => rfl
  | [c], _ => by
    by_cases hc : c = '^'
    · subst hc; rfl
    · have hb : (c == '^') = false := by simpa using hc
      simp [removeCaretPairs, hb]
  | a :: b :: t, h => by
    have h1 : (a != '^' || b == '\n') = true ∧ caretOk (b :: t) = true := by
      simpa [caretOk] using h
    have e := removeCaretPairs_of_caretOk h1.2
    by_cases ha : a = '^'
    · subst ha
      have hb : b = '\n' := by
        rcases Bool.or_eq_true_iff.mp h1.1 with h2 | h2
        · simp at h2
        · simpa using h2
      subst hb
      simp [removeCaretPairs, e]
    · have hb : (a == '^') = false := by simpa using ha
      simp [removeCaretPairs, hb, e]

theorem caretOk_filter {p : Char → Bool} (hp : p '\n' = true) :
    ∀ {l : List Char}, caretOk l = true → caretOk (l.filter p) = true
  | [], _ => rfl
  | a :: rest, h => by
    have hrest : caretOk rest = true := caretOk_tail h
    have ihr := caretOk_filter hp hrest
    by_cases hpa : p a = true
    · rw [List.filter_cons_of_pos hpa]
      by_cases ha : a = '^'
      · subst ha
        cases rest with
        | nil => rfl
        | cons b t =>
          have h1 : (('^' : Char) != '^' || b == '\n') = true ∧ caretOk (b :: t) = true := by
            simpa [caretOk] using h
          have hb : b = '\n' := by
            rcases Bool.or_eq_true_iff.mp h1.1 with h2 | h2
            · simp at h2
            · simpa using h2
          subst hb
          rw [List.filter_cons_of_pos hp] at ihr ⊢
          simp [caretOk, ihr]
      · exact caretOk_cons ha ihr
    · rw [List.filter_cons_of_neg (by simpa using hpa)]
      exact ihr

theorem findIndelStart_eq_none {s : List Char} (h1 : '+' ∉ s) (h2 : '-' ∉ s) :
    findIndelStart s = none := by
  induction s with
  | nil => rfl
  | cons c t ih =>
    have hc1 : c ≠ '+' := fun h => h1 (h ▸ List.mem_cons_self c t)
    have hc2 : c ≠ '-' := fun h => h2 (h ▸ List.mem_cons_self c t)
    have hb1 : (c == '+') = false := by simpa using hc1
    have hb2 : (c == '-') = false := by simpa using hc2
    have iht := ih (fun hm => h1 (List.mem_cons_of_mem c hm))
      (fun hm => h2 (List.mem_cons_of_mem c hm))
    simp [findIndelStart, hb1, hb2, iht]

theorem remove_indelFuel_of_none {s : List Char} (h : findIndelStart s = none) :
    ∀ n, remove_indelFuel n s = s
  | 0 => rfl
  | n + 1 => by simp [remove_indelFuel, h]

theorem clean_seq_not_set2 {s : List Char} : ∀ c ∈ clean_seq s, inSet2 c = false := by
  intro c hc
  have hc' : c ∈ (removeCaretPairs (_remove_indel s)).filter (fun c => !inSet2 c) := hc
  simpa using List.of_mem_filter hc'

theorem caretOk_clean_seq (s : List Char) : caretOk (clean_seq s) = true := by
  have h1 := caretOk_removeCaretPairs (_remove_indel s)
  show caretOk ((removeCaretPairs (_remove_indel s)).filter (fun c => !inSet2 c)) = true
  exact caretOk_filter (by decide) h1

theorem clean_seq_fixed {l : List Char}
    (hset : ∀ c ∈ l, inSet2 c = false) (hcar : caretOk l = true) :
    clean_seq l = l := by
  have hplus : '+' ∉ l := fun hm => absurd (hset _ hm) (by decide)
  have hminus : '-' ∉ l := fun hm => absurd (hset _ hm) (by decide)
  have h1 : _remove_indel l = l :=
    remove_indelFuel_of_none (findIndelStart_eq_none hplus hminus) _
  have h2 : removeCaretPairs l = l := removeCaretPairs_of_caretOk hcar
  have h3 : l.filter (fun c => !inSet2 c) = l :=
    List.filter_eq_self.mpr (fun c hc => by simp [hset c hc])
  show (removeCaretPairs (_remove_indel l)).filter (fun c => !inSet2 c) = l
  rw [h1, h2, h3]

/-- Claim C7: the cleaning pipeline is idempotent — a pair it has produced
is returned unchanged when cleaned again. -/
theorem cleaning_idempotent {s q s2 q2 : List Char}
    (h : cleanPair s q = some (s2, q2)) : cleanPair s2 q2 = some (s2, q2) := by
  obtain ⟨hl, hs, hq⟩ := remove_asterisk_eq h
  have hset1 : ∀ c ∈ clean_seq s, inSet2 c = false := clean_seq_not_set2
  have hcar1 : caretOk (clean_seq s) = true := caretOk_clean_seq s
  have hset2 : ∀ c ∈ s2, inSet2 c = false := by
    intro c hc
    rw [hs] at hc
    exact hset1 c (List.mem_of_mem_filter hc)
  have hcar2 : caretOk s2 = true := by
    rw [hs]
    exact caretOk_filter (by decide) hcar1
  have hstar2 : '*' ∉ s2 := by
    rw [hs]
    intro hm
    have := List.of_mem_filter hm
    simp at this
  have hfl : clean_seq s2 = s2 := clean_seq_fixed hset2 hcar2
  have hlen2 : s2.length = q2.length := by
    rw [hs, hq]
    exact (maskFilter_length hl).symm
  show remove_asterisk (clean_seq s2) q2 = some (s2, q2)
  rw [hfl]
  unfold remove_asterisk
  rw [if_pos hlen2, removeAsteriskFuel_eq s2.length s2 q2 (List.count_le_length '*' s2)]
  rw [filter_ne_of_not_mem hstar2, maskFilter_of_not_mem q2 hstar2]

/-- Witness for C7: the pipeline output for `("A*C", "FGH")` is a fixed
point of the pipeline. -/
theorem cleaning_idempotent_instance :
    cleanPair "AC".toList "FH".toList = some ("AC".toList, "FH".toList) :=
  @cleaning_idempotent "A*C".toList "FGH".toList "AC".toList "FH".toList (by decide)

/-- Claim C5 counterexample: cleaning the base-call string `"A+2AGT"` does
not yield `"A"`. -/
theorem clean_seq_indel_not_A : clean_seq "A+2AGT".toList ≠ "A".toList := by
  decide

/-- Claim C5 amended: cleaning `"A+2AGT"` removes the `+2` token together
with the two following characters, yielding `"AT"`. -/
theorem clean_seq_indel_example : clean_seq "A+2AGT".toList = "AT".toList := by
  decide

/-! Region depth and uniformity -/

theorem stat_mean_of_length_ne_zero {l : List ℚ} (h : l.length ≠ 0) :
    stat_mean l = some (l.sum / (l.length : ℚ)) := by
  unfold stat_mean
  rw [if_neg h]

theorem calc_region_depth_nil {idx : List PileupRecord} {c : String} {s e : Int}
    (h : idx.filter (regionMatch c s e) = []) :
    calc_region_depth idx c s e = some 0 := by
  simp only [calc_region_depth, h]
  simp

/-- Claim C2: on a nonempty selection, `calc_region_depth` returns the
arithmetic mean of the depths of exactly the records matching the
chromosome and the inclusive position bounds, rounded to two decimals. -/
theorem calc_region_depth_mean (idx : List PileupRecord) (c : String)
    (s e : Int) (h : idx.filter (regionMatch c s e) ≠ []) :
    calc_region_depth idx c s e =
      some (round2 ((((idx.filter (regionMatch c s e)).map
          (fun r => (r.depth : ℚ))).sum) /
        (((idx.filter (regionMatch c s e)).length : ℚ)))) := by
  have hlen : ((idx.filter (regionMatch c s e)).map
      (fun r => (r.depth : ℚ))).length ≠ 0 := by
    intro h0
    rw [List.length_map] at h0
    exact h (List.length_eq_zero.mp h0)
  simp only [calc_region_depth]
  rw [if_neg hlen, stat_mean_of_length_ne_zero hlen]
  simp [List.length_map]

/-- Witness for C2: depths 10, 20, 30 inside the requested interval give a
region depth of 20. -/
theorem calc_region_depth_mean_instance :
    calc_region_depth idxThree "chr1" 1 3 = some 20 := by
  rw [calc_region_depth_mean idxThree "chr1" 1 3 (by decide)]
  have efil : idxThree.filter (regionMatch "chr1" 1 3) = idxThree := by decide
  rw [efil]
  norm_num [idxThree, round2, roundHalfEven]

/-- Claim C3: when no record matches the chromosome and the inclusive
position bounds, `calc_region_depth` returns exactly `0.0` without
raising. -/
theorem calc_region_depth_no_match (idx : List PileupRecord) (c : String)
    (s e : Int) (h : ∀ r ∈ idx, regionMatch c s e r = false) :
    calc_region_depth idx c s e = some 0 :=
  calc_region_depth_nil (List.filter_eq_nil_iff.mpr (fun r hr => by simp [h r hr]))

/-- Witness for C3: a chromosome absent from the index. -/
theorem calc_region_depth_no_match_instance :
    calc_region_depth idxThree "chr2" 1 3 = some 0 :=
  calc_region_depth_no_match idxThree "chr2" 1 3 (by decide)

/-- Claim C10: `calc_region_depth` is total — for every chromosome string
and every pair of integer bounds (including inverted bounds and absent
chromosomes) it produces a value and never reaches the raising branch of
`statistics.mean`. -/
theorem calc_region_depth_total (idx : List PileupRecord) (c : String)
    (s e : Int) : (calc_region_depth idx c s e).isSome = true := by
  simp only [calc_region_depth]
  by_cases h : ((idx.filter (regionMatch c s e)).map
      (fun r => (r.depth : ℚ))).length = 0
  · rw [if_pos h]
    rfl
  · rw [if_neg h, stat_mean_of_length_ne_zero h]
    rfl

theorem list_sum_le_length {l : List ℚ} (h : ∀ x ∈ l, x = 0 ∨ x = 1) :
    0 ≤ l.sum ∧ l.sum ≤ (l.length : ℚ) := by
  induction l with
  | nil => simp
  | cons a t ih =>
    obtain ⟨h1, h2⟩ := ih (fun x hx => h x (List.mem_cons_of_mem a hx))
    have ha := h a (List.mem_cons_self a t)
    simp only [List.sum_cons, List.length_cons]
    push_cast
    rcases ha with ha | ha <;> rw [ha] <;> constructor <;> linarith

/-- Claim C1: with at least one non-mitochondrial record, `uniformity`
equals the mean over all records of the indicator of having depth at least
half the non-mitochondrial mean depth, and this value lies in `[0, 1]`. -/
theorem uniformity_mean_scores (idx : List PileupRecord)
    (h : idx.filter (fun r => r.chrom != "chrM") ≠ []) :
    uniformity idx = some (specScoreMean idx) ∧
      0 ≤ specScoreMean idx ∧ specScoreMean idx ≤ 1 := by
  have hflen : (specNonMitoDepths idx).length ≠ 0 := by
    intro h0
    unfold specNonMitoDepths at h0
    rw [List.length_map] at h0
    exact h (List.length_eq_zero.mp h0)
  have hidx : idx ≠ [] := by
    intro h0
    subst h0
    simp at h
  have hlen : idx.length ≠ 0 := fun h0 => hidx (List.length_eq_zero.mp h0)
  have hmean := stat_mean_of_length_ne_zero hflen
  have hstep : uniformity idx =
      stat_mean (idx.map (fun r =>
        if (r.depth : ℚ) < specHalfMeanThreshold idx then (0 : ℚ) else 1)) := by
    unfold uniformity
    rw [show ((idx.filter (fun r => r.chrom != "chrM")).map
        (fun r => (r.depth : ℚ))) = specNonMitoDepths idx from rfl]
    rw [hmean]
    rfl
  have hf : (fun r : PileupRecord =>
      if (r.depth : ℚ) < specHalfMeanThreshold idx then (0 : ℚ) else 1) =
      (fun r : PileupRecord =>
        if specHalfMeanThreshold idx ≤ (r.depth : ℚ) then (1 : ℚ) else 0) := by
    funext r
    by_cases hr : (r.depth : ℚ) < specHalfMeanThreshold idx
    · rw [if_pos hr, if_neg (not_le.mpr hr)]
    · rw [if_neg hr, if_pos (le_of_not_lt hr)]
  have hscores : (idx.map (fun r =>
      if (r.depth : ℚ) < specHalfMeanThreshold idx then (0 : ℚ) else 1)) =
      specScores idx := by
    rw [hf]
    rfl
  have hslen : (specScores idx).length = idx.length := List.length_map idx _
  have hmem : ∀ x ∈ specScores idx, x = 0 ∨ x = 1 := by
    intro x hx
    obtain ⟨r, _, hr⟩ := List.mem_map.mp hx
    by_cases hc : specHalfMeanThreshold idx ≤ (r.depth : ℚ)
    · right
      rw [← hr, if_pos hc]
    · left
      rw [← hr, if_neg hc]
  obtain ⟨h1, h2⟩ := list_sum_le_length hmem
  have hpos : (0 : ℚ) < ((specScores idx).length : ℚ) := by
    rw [hslen]
    exact_mod_cast Nat.pos_of_ne_zero hlen
  refine ⟨?_, ?_, ?_⟩
  · rw [hstep, hscores,
      stat_mean_of_length_ne_zero (by rw [hslen]; exact hlen)]
    rfl
  · exact div_nonneg h1 (le_of_lt hpos)
  · exact (div_le_one hpos).mpr h2

/-- Witness for C1: five records with depths 10, 10, 10, 10, 100 (mean 28,
threshold 14) give uniformity 1/5. -/
theorem uniformity_mean_scores_instance : uniformity idxFive = some (1 / 5) := by
  obtain ⟨hu, _, _⟩ := uniformity_mean_scores idxFive (by decide)
  have ht : specHalfMeanThreshold idxFive = 14 := by
    unfold specHalfMeanThreshold specNonMitoDepths
    rw [show idxFive.filter (fun r => r.chrom != "chrM") = idxFive from by decide]
    norm_num [idxFive]
  have hs : specScoreMean idxFive = 1 / 5 := by
    unfold specScoreMean specScores
    rw [ht]
    norm_num [idxFive]
  rw [hu, hs]

/-! Gene depth reporting -/

/-- Claim C9: a (symbol, Ensembl-id) pair absent from the coordinate table
makes the reporter log an informational note and fall back to the
placeholder region `('chr1', 0, 0)`; the gene still receives an output row,
whose depth is `0.0` whenever the index holds only positive positions. -/
theorem gene_lookup_miss_placeholder (genes : List GeneCoord)
    (df : List (String × String)) (idx : List PileupRecord) (g e : String)
    (hmiss : ∀ gc ∈ genes, ¬(gc.ensembl_id = e ∧ gc.symbol = g))
    (hmem : (g, e) ∈ df)
    (hpos : ∀ r ∈ idx, 1 ≤ r.pos) :
    _get_genomic_position genes g e =
        (("chr1", 0, 0), ["[INFO] " ++ g ++ " gene not in gene_table."]) ∧
      (make_depth_table genes df idx).length = df.length ∧
      (g, some (0 : ℚ)) ∈ make_depth_table genes df idx := by
  have hfind : (genes.filter (fun gc => gc.ensembl_id == e)).find?
      (fun gc => gc.symbol == g) = none := by
    rw [List.find?_eq_none]
    intro gc hgc
    obtain ⟨hg, hens⟩ := List.mem_filter.mp hgc
    intro hsym
    exact hmiss gc hg ⟨by simpa using hens, by simpa using hsym⟩
  have hplace : _get_genomic_position genes g e =
      (("chr1", 0, 0), ["[INFO] " ++ g ++ " gene not in gene_table."]) := by
    unfold _get_genomic_position
    rw [hfind]
  have hzero : calc_region_depth idx "chr1" 0 0 = some 0 := by
    apply calc_region_depth_no_match
    intro r hr
    have h1 : ¬(r.pos ≤ 0) := by
      have := hpos r hr
      omega
    simp [regionMatch, h1]
  have hrow : (fun ge : String × String =>
      let pos := (_get_genomic_position genes ge.1 ge.2).1
      (ge.1, calc_region_depth idx pos.1 pos.2.1 pos.2.2)) (g, e) =
      (g, some (0 : ℚ)) := by
    simp only [hplace]
    rw [hzero]
  refine ⟨hplace, by simp [make_depth_table], ?_⟩
  have hmap := List.mem_map_of_mem (fun ge : String × String =>
    let pos := (_get_genomic_position genes ge.1 ge.2).1
    (ge.1, calc_region_depth idx pos.1 pos.2.1 pos.2.2)) hmem
  rw [hrow] at hmap
  exact hmap

/-- Witness for C9: `("TP53", "ENSG2")` misses the one-row table, gets the
placeholder region and a zero-depth report row. -/
theorem gene_lookup_miss_placeholder_instance :
    _get_genomic_position genesOne "TP53" "ENSG2" =
        (("chr1", 0, 0), ["[INFO] " ++ "TP53" ++ " gene not in gene_table."]) ∧
      (make_depth_table genesOne geneListOne idxThree).length = geneListOne.length ∧
      ("TP53", some (0 : ℚ)) ∈ make_depth_table genesOne geneListOne idxThree :=
  gene_lookup_miss_placeholder genesOne geneListOne idxThree "TP53" "ENSG2"
    (by decide) (by decide) (by decide)

/-- Claim C8 (the validation the spec describes, absent from the code): the
spec-modelled loader rejects a six-field line whose depth is not an integer
and accepts a well-formed line. -/
theorem malformed_line_spec_model :
    parsePileupLineSpec "chr1\t100\tA\tabc\tAAAAA\tFFFFF".toList =
        Except.error LoadFailure.malformedLine ∧
      parsePileupLineSpec "chr1\t100\tA\t12\tAAAAA\tFFFFF".toList =
        Except.ok ⟨"chr1", 100, "A", 12, "AAAAA".toList, some "FFFFF".toList⟩ :=
  ⟨rfl, rfl⟩

end MpileupQC
